import Mathlib

/-!
Verification of the partition-widget core of swri_profiler
(src/swri_profiler_tools/src/partition_widget.cpp) against its
natural-language specification.

The source file's algorithmic core is embedded shallowly:
doubles become rationals (ℚ), node keys become ℤ, the profile data
store becomes a total key-to-node map.  The profile node and the
animation engine live in headers that are not part of the source
tree, so those two data types are modelled from the spec (their doc
comments say so); everything computed over them is translated from
partition_widget.cpp itself.
-/

/-- Modelled from the spec: one sample of a profile node's time series,
carrying the cumulative inclusive and exclusive durations in
nanoseconds (spec section 3; the ProfileNode header is not in src/). -/
structure Sample where
  cumulative_inclusive_duration_ns : ℚ
  cumulative_exclusive_duration_ns : ℚ
deriving DecidableEq

/-- Modelled from the spec: a profile node with a validity flag, its
ordered child keys and its time series of samples (spec section 3;
the ProfileNode header is not in src/). -/
structure ProfileNode where
  valid : Bool
  childKeys : List ℤ
  data : List Sample
deriving DecidableEq

def ProfileNode.isValid (n : ProfileNode) : Bool := n.valid

def ProfileNode.hasChildren (n : ProfileNode) : Bool := !n.childKeys.isEmpty

/-- Last element of the node's time series, mirroring data().back().
Calling back() on an empty vector is undefined behaviour in C++;
every use in the source is guarded by an emptiness check, so the
default value never influences a modelled execution. -/
def ProfileNode.lastSample (n : ProfileNode) : Sample := n.data.getLastD ⟨0, 0⟩

/-- Modelled from the spec: a profile owns a tree of nodes keyed by
integer node key and exposes a distinguished root (spec section 3). -/
structure Profile where
  nodes : ℤ → ProfileNode
  rootKey : ℤ

def Profile.node (p : Profile) (k : ℤ) : ProfileNode := p.nodes k

def Profile.rootNode (p : Profile) : ProfileNode := p.nodes p.rootKey

/-- Latest cumulative inclusive duration of the node with key k. -/
def nIncl (p : Profile) (k : ℤ) : ℚ :=
  (p.node k).lastSample.cumulative_inclusive_duration_ns

/-- Latest cumulative exclusive duration of the node with key k. -/
def nExcl (p : Profile) (k : ℤ) : ℚ :=
  (p.node k).lastSample.cumulative_exclusive_duration_ns

/-- LayoutItem from partition_widget.h usage in the source: a node key,
an exclusive (self-time) marker and a normalized span. -/
structure LayoutItem where
  node_key : ℤ
  exclusive : Bool
  span_start : ℚ
  span_end : ℚ
deriving DecidableEq

abbrev Layout := List (List LayoutItem)

/-- Length of an item's span. -/
def itemLen (it : LayoutItem) : ℚ := it.span_end - it.span_start

/-- Result of expanding part of a column: the produced items, the final
value of the running span_start cursor, and the accumulated
keep_going flag. -/
structure BuildRes where
  items : List LayoutItem
  cursor : ℚ
  kg : Bool

/-- Inner loop of PartitionWidget::layoutProfile (lines 233-245): one
non-exclusive item per child key, advancing the cursor by the child's
latest inclusive duration divided by time_scale, and OR-ing each
child's hasChildren into keep_going. -/
def expandChildren (p : Profile) (scale : ℚ) : ℚ → List ℤ → BuildRes
  | c, [] => ⟨[], c, false⟩
  | c, k :: rest =>
    let child_node := p.node k
    let e := c + child_node.lastSample.cumulative_inclusive_duration_ns / scale
    let r := expandChildren p scale e rest
    ⟨⟨k, false, c, e⟩ :: r.items, r.cursor, child_node.hasChildren || r.kg⟩

/-- Body of the per-parent loop of PartitionWidget::layoutProfile
(lines 214-246): the carry-over exclusive item for the parent,
followed (for non-exclusive parents only) by its expanded children. -/
def expandParent (p : Profile) (scale : ℚ) (parent : LayoutItem) (c : ℚ) : BuildRes :=
  let parent_node := p.node parent.node_key
  let ex_end := c + parent_node.lastSample.cumulative_exclusive_duration_ns / scale
  let ex_item : LayoutItem := ⟨parent.node_key, true, c, ex_end⟩
  if parent.exclusive then ⟨[ex_item], ex_end, false⟩
  else
    let r := expandChildren p scale ex_end parent_node.childKeys
    ⟨ex_item :: r.items, r.cursor, r.kg⟩

/-- One iteration of the while loop of PartitionWidget::layoutProfile:
builds the next column from the previous one, threading the running
cursor (which starts at 0 for each column) through the parents. -/
def buildColumn (p : Profile) (scale : ℚ) : List LayoutItem → ℚ → BuildRes
  | [], c => ⟨[], c, false⟩
  | parent :: rest, c =>
    let g := expandParent p scale parent c
    let r := buildColumn p scale rest g.cursor
    ⟨g.items ++ r.items, r.cursor, g.kg || r.kg⟩

/-- While loop of PartitionWidget::layoutProfile (lines 205-247).  The
C++ loop runs until keep_going is false; the fuel parameter bounds the
number of iterations so that the function is total (a profile whose
key graph is cyclic would make the C++ loop run forever). -/
def buildColumns (p : Profile) (scale : ℚ) : List LayoutItem → ℕ → List (List LayoutItem)
  | _, 0 => []
  | parents, fuel + 1 =>
    let r := buildColumn p scale parents 0
    if r.kg then r.items :: buildColumns p scale r.items fuel else [r.items]

/-- PartitionWidget::layoutProfile (lines 179-250): empty layout for an
invalid root or a root without samples, otherwise a first column with
the root spanning exactly 0 to 1 followed by the breadth-first
expansion scaled by the root's latest inclusive duration. -/
def layoutProfile (p : Profile) (fuel : ℕ) : Layout :=
  let root_node := p.rootNode
  if !root_node.isValid then []
  else if root_node.data.isEmpty then []
  else
    let time_scale := root_node.lastSample.cumulative_inclusive_duration_ns
    let root_item : LayoutItem := ⟨p.rootKey, false, 0, 1⟩
    if root_node.hasChildren then
      [root_item] :: buildColumns p time_scale [root_item] fuel
    else
      [[root_item]]

/-- Weight an item contributes to its column: exclusive items weigh
their node's exclusive duration over the scale, non-exclusive items
their node's inclusive duration over the scale.  Every item built by
layoutProfile has span length equal to its weight. -/
def itemWeight (p : Profile) (scale : ℚ) (it : LayoutItem) : ℚ :=
  if it.exclusive then nExcl p it.node_key / scale
  else nIncl p it.node_key / scale

/-- Total weight of the items one parent generates in the next column. -/
def groupWeight (p : Profile) (scale : ℚ) (parent : LayoutItem) : ℚ :=
  nExcl p parent.node_key / scale +
    (if parent.exclusive then 0
     else (((p.node parent.node_key).childKeys).map (fun k => nIncl p k / scale)).sum)

/-- Items form a contiguous chain starting at c: each item starts where
its predecessor ended. -/
def chainFrom : ℚ → List LayoutItem → Prop
  | _, [] => True
  | c, it :: rest => it.span_start = c ∧ chainFrom it.span_end rest

instance instDecChainFrom : (c : ℚ) → (l : List LayoutItem) → Decidable (chainFrom c l)
  | _, [] => .isTrue trivial
  | c, it :: rest =>
    have : Decidable (chainFrom it.span_end rest) := instDecChainFrom it.span_end rest
    decidable_of_iff (it.span_start = c ∧ chainFrom it.span_end rest) Iff.rfl

/-- End of a chain of items: c when the list is empty, otherwise the
last item's span_end. -/
def lastEnd : ℚ → List LayoutItem → ℚ
  | c, [] => c
  | _, it :: rest => lastEnd it.span_end rest

/-- Every node records non-negative latest durations. -/
def NonnegDurations (p : Profile) : Prop :=
  ∀ k : ℤ, 0 ≤ nIncl p k ∧ 0 ≤ nExcl p k

/-- Every node's exclusive duration plus its children's inclusive
durations stays within its own inclusive duration. -/
def ConservLE (p : Profile) : Prop :=
  ∀ k : ℤ, nExcl p k + (((p.node k).childKeys).map (nIncl p)).sum ≤ nIncl p k

/-- Every node's inclusive duration splits exactly into its exclusive
duration plus its children's inclusive durations. -/
def ConservEQ (p : Profile) : Prop :=
  ∀ k : ℤ, nExcl p k + (((p.node k).childKeys).map (nIncl p)).sum = nIncl p k

/-- QRectF from two corner points, as used by the source: left and top
from the first corner, right and bottom from the second. -/
structure QRectF where
  left : ℚ
  top : ℚ
  right : ℚ
  bottom : ℚ
deriving DecidableEq

def QRectF.width (r : QRectF) : ℚ := r.right - r.left

def QRectF.height (r : QRectF) : ℚ := r.bottom - r.top

/-- Row scan of one column of PartitionWidget::dataRect (lines 127-140):
the first item of the column whose node_key matches the active key. -/
def findRow (key : ℤ) : List LayoutItem → Option LayoutItem
  | [] => none
  | it :: rest => if it.node_key = key then some it else findRow key rest

/-- Brute-force scan of PartitionWidget::dataRect (lines 126-141):
columns outer, rows inner, returning the column index and item of the
first item whose node_key matches. -/
def findFrom (key : ℤ) : List (List LayoutItem) → ℕ → Option (ℕ × LayoutItem)
  | [], _ => none
  | col :: rest, c =>
    match findRow key col with
    | some item => some (c, item)
    | none => findFrom key rest (c + 1)

/-- PartitionWidget::dataRect (lines 119-145): on a match at column col
with span from s to e, the rectangle from (max 0 (col - 0.2),
max (s - 0.05 span) 0) to (columnCount, min (e + 0.05 span) 1);
with no match, the full-extent rectangle. -/
def dataRect (layout : Layout) (active_node_key : ℤ) : QRectF :=
  match findFrom active_node_key layout 0 with
  | some (col, item) =>
    let rect_col : ℚ := max 0 ((col : ℚ) - 1/5)
    let margin : ℚ := 1/20
    let span_size := item.span_end - item.span_start
    let span_start := max (item.span_start - margin * span_size) 0
    let span_end := min (item.span_end + margin * span_size) 1
    ⟨rect_col, span_start, (layout.length : ℚ), span_end⟩
  | none => ⟨0, 0, (layout.length : ℚ), 1⟩

/-- True exactly when PartitionWidget::dataRect reaches its qWarning
fallback (line 143), i.e. when no item matches the active key. -/
def dataRectWarns (layout : Layout) (active_node_key : ℤ) : Bool :=
  (findFrom active_node_key layout 0).isNone

/-- QTransform with the nine matrix entries, row by row, as passed by
the source (lines 294-296). -/
structure QTransform where
  m11 : ℚ
  m12 : ℚ
  m13 : ℚ
  m21 : ℚ
  m22 : ℚ
  m23 : ℚ
  m31 : ℚ
  m32 : ℚ
  m33 : ℚ
deriving DecidableEq

/-- Image of a point under an affine QTransform (no projective part). -/
def QTransform.mapPt (t : QTransform) (x y : ℚ) : ℚ × ℚ :=
  (t.m11 * x + t.m21 * y + t.m31, t.m12 * x + t.m22 * y + t.m32)

/-- PartitionWidget::getTransform (lines 286-298): independent x and y
scales mapping data_rect onto win_rect, with matching translation. -/
def getTransform (win_rect data_rect : QRectF) : QTransform :=
  let sx := win_rect.width / data_rect.width
  let sy := win_rect.height / data_rect.height
  let tx := win_rect.left - sx * data_rect.left
  let ty := win_rect.top - sy * data_rect.top
  ⟨sx, 0, 0, 0, sy, 0, tx, ty, 1⟩

/-- Modelled from the spec: animation states Idle and Animating of the
view animator (spec section 4.4; variant_animation.h is not in src/). -/
inductive AnimState where
  | Idle
  | Animating
deriving DecidableEq

/-- Modelled from the spec: the view animator holds start and end
rectangles and a normalized progress advanced by the external tween
engine (spec section 4.4; variant_animation.h is not in src/). -/
structure VariantAnimation where
  startValue : QRectF
  endValue : QRectF
  progress : ℚ
  state : AnimState
  duration : ℚ
deriving DecidableEq

/-- Modelled from the spec: the InOutCubic easing curve used by the
animator (spec section 4.4). -/
def easeInOutCubic (t : ℚ) : ℚ :=
  if t < 1/2 then 4 * t * t * t
  else 1 - (2 - 2 * t) * (2 - 2 * t) * (2 - 2 * t) / 2

def lerpQ (a b t : ℚ) : ℚ := a + (b - a) * t

/-- Componentwise linear interpolation of two rectangles. -/
def lerpRect (a b : QRectF) (t : ℚ) : QRectF :=
  ⟨lerpQ a.left b.left t, lerpQ a.top b.top t,
   lerpQ a.right b.right t, lerpQ a.bottom b.bottom t⟩

/-- Modelled from the spec: the animator's current value is the eased
interpolation between its start and end rectangles (spec section 4.4). -/
def VariantAnimation.currentValue (an : VariantAnimation) : QRectF :=
  lerpRect an.startValue an.endValue (easeInOutCubic an.progress)

/-- Modelled from the spec: the profile database maps profile keys to
profiles (profile_database.h is not in src/). -/
structure ProfileDatabase where
  profile : ℤ → Profile

/-- State of the widget that the modelled slots read and write: the
active key (none models the invalid DatabaseKey sentinel), the current
layout and the view animator. -/
structure WidgetState where
  active_key : Option (ℤ × ℤ)
  current_layout : Layout
  anim : VariantAnimation
deriving DecidableEq

/-- PartitionWidget::updateData (lines 85-98): no-op without a valid
active key; otherwise rebuild the layout from the active profile and
refresh the animator's end value with the located data rectangle. -/
def updateData (db : ProfileDatabase) (fuel : ℕ) (s : WidgetState) : WidgetState :=
  match s.active_key with
  | none => s
  | some (profile_key, node_key) =>
    let profile := db.profile profile_key
    let layout := layoutProfile profile fuel
    let dr := dataRect layout node_key
    { s with
      anim := { s.anim with endValue := dr },
      current_layout := layout }

/-- Change notifications emitted by the database (source lines 80-82). -/
inductive DbSignal where
  | dataAdded
  | profileAdded
  | nodesAdded

/-- All three database signals are connected to the same updateData
slot (PartitionWidget::setDatabase, lines 80-82). -/
def handleSignal (_sig : DbSignal) (db : ProfileDatabase) (fuel : ℕ)
    (s : WidgetState) : WidgetState :=
  updateData db fuel s

/-- PartitionWidget::setActiveNode (lines 147-177): no-op on an
identical key; otherwise rebuild the layout and either snap the
animator to the new data rectangle (first activation) or restart it
from its previous end value toward the new rectangle over 500 ms. -/
def setActiveNode (db : ProfileDatabase) (fuel : ℕ) (s : WidgetState)
    (profile_key node_key : ℤ) : WidgetState :=
  let new_key : Option (ℤ × ℤ) := some (profile_key, node_key)
  if s.active_key = new_key then s
  else
    let first := !s.active_key.isSome
    let profile := db.profile profile_key
    let layout := layoutProfile profile fuel
    let dr := dataRect layout node_key
    let anim :=
      if !first then
        ⟨s.anim.endValue, dr, 0, AnimState.Animating, 500⟩
      else
        { s.anim with startValue := dr, endValue := dr }
    ⟨new_key, layout, anim⟩

/-- Fixture: root node with one sample (inclusive 100 ns, exclusive
20 ns) and a single child. -/
def rootNodeEx : ProfileNode := ⟨true, [2], [⟨100, 20⟩]⟩

/-- Fixture: leaf child with one sample (inclusive 80 ns, exclusive
80 ns). -/
def childNodeEx : ProfileNode := ⟨true, [], [⟨80, 80⟩]⟩

/-- Fixture: the node every unmapped key resolves to (invalid, no
children, no samples). -/
def blankNode : ProfileNode := ⟨false, [], []⟩

/-- Fixture: the two-node profile of the specification scenario, root
at key 1 and child at key 2. -/
def exampleProfile : Profile :=
  ⟨fun k => if k = 1 then rootNodeEx else if k = 2 then childNodeEx else blankNode, 1⟩

/-- Fixture: a profile whose root node is invalid. -/
def invalidProfile : Profile := ⟨fun _ => blankNode, 0⟩

/-- Fixture: a profile violating duration conservation, with exclusive
duration 200 ns against an inclusive duration of 100 ns. -/
def cex3Profile : Profile :=
  ⟨fun k =>
    if k = 1 then ⟨true, [3], [⟨100, 200⟩]⟩
    else if k = 3 then ⟨true, [], [⟨0, 0⟩]⟩
    else blankNode, 1⟩

/-- Fixture: a profile whose root's exclusive duration plus its child's
inclusive duration overshoots the root's inclusive duration. -/
def cex4Profile : Profile :=
  ⟨fun k =>
    if k = 1 then ⟨true, [2], [⟨100, 50⟩]⟩
    else if k = 2 then ⟨true, [], [⟨80, 80⟩]⟩
    else blankNode, 1⟩

/-- Fixture: a database serving exampleProfile under every key. -/
def exampleDb : ProfileDatabase := ⟨fun _ => exampleProfile⟩

lemma findRow_eq_none (col : List LayoutItem) (key : ℤ)
    (h : ∀ it ∈ col, it.node_key ≠ key) :
    findRow key col = none := by
  induction col with
  | nil => rfl
  | cons hd tl ih =>
    rw [findRow, if_neg (h hd (List.mem_cons_self hd tl))]
    exact ih (fun it hit => h it (List.mem_cons_of_mem _ hit))

lemma findFrom_none (key : ℤ) (cols : List (List LayoutItem)) (n : ℕ)
    (h : ∀ col ∈ cols, ∀ it ∈ col, it.node_key ≠ key) :
    findFrom key cols n = none := by
  induction cols generalizing n with
  | nil => rfl
  | cons col rest ih =>
    have hcol := findRow_eq_none col key (h col (List.mem_cons_self col rest))
    simp only [findFrom, hcol]
    exact ih (n + 1) (fun c hc => h c (List.mem_cons_of_mem _ hc))

lemma findRow_first_match (key : ℤ) (l : List LayoutItem) (r : ℕ) (item : LayoutItem)
    (hr : l.get? r = some item) (hkey : item.node_key = key)
    (hbefore : ∀ j, j < r → ∀ itj, l.get? j = some itj → itj.node_key ≠ key) :
    findRow key l = some item := by
  induction l generalizing r with
  | nil => simp at hr
  | cons hd tl ih =>
    cases r with
    | zero =>
      simp only [List.get?_cons_zero, Option.some.injEq] at hr
      subst hr
      rw [findRow, if_pos hkey]
    | succ r =>
      have hhd : hd.node_key ≠ key := hbefore 0 (Nat.succ_pos r) hd rfl
      rw [findRow, if_neg hhd]
      exact ih r hr (fun j hj itj hget =>
        hbefore (j + 1) (Nat.succ_lt_succ hj) itj hget)

lemma findFrom_first (key : ℤ) (cols : List (List LayoutItem)) (n c : ℕ)
    (col : List LayoutItem) (item : LayoutItem)
    (hc : cols.get? c = some col)
    (hfind : findRow key col = some item)
    (hbefore : ∀ j, j < c → ∀ colj, cols.get? j = some colj →
      ∀ it ∈ colj, it.node_key ≠ key) :
    findFrom key cols n = some (n + c, item) := by
  induction cols generalizing n c with
  | nil => simp at hc
  | cons hd tl ih =>
    cases c with
    | zero =>
      simp only [List.get?_cons_zero, Option.some.injEq] at hc
      subst hc
      simp [findFrom, hfind]
    | succ c =>
      have hhd : findRow key hd = none :=
        findRow_eq_none hd key (hbefore 0 (Nat.succ_pos c) hd rfl)
      simp only [findFrom, hhd]
      have hrec := ih (n + 1) c hc (fun j hj colj hget =>
        hbefore (j + 1) (Nat.succ_lt_succ hj) colj hget)
      have harith : n + 1 + c = n + (c + 1) := by omega
      rw [harith] at hrec
      exact hrec

/-- C1: the two-level scenario profile (root inclusive 100 ns and
exclusive 20 ns, one child of inclusive 80 ns with no grandchildren)
produces exactly two columns: the root spanning 0 to 1, then the
root's exclusive segment from 0 to 0.2 followed by the child from 0.2
to 1. -/
theorem layoutProfile_two_level_scenario (fuel : ℕ) :
    layoutProfile exampleProfile (fuel + 1) =
      [[⟨1, false, 0, 1⟩], [⟨1, true, 0, 1/5⟩, ⟨2, false, 1/5, 1⟩]] := by
  simp [layoutProfile, buildColumns, buildColumn, expandParent, expandChildren,
    exampleProfile, rootNodeEx, childNodeEx, blankNode, Profile.rootNode, Profile.node,
    ProfileNode.isValid, ProfileNode.hasChildren, ProfileNode.lastSample]
  norm_num

/-- C2: a profile whose root node is invalid, or whose root node has no
recorded samples, produces an empty layout. -/
theorem layoutProfile_empty_on_invalid_or_no_samples (p : Profile) (fuel : ℕ)
    (h : p.rootNode.isValid = false ∨ p.rootNode.data = []) :
    layoutProfile p fuel = [] := by
  unfold layoutProfile
  rcases h with h | h
  · simp [h]
  · by_cases hv : p.rootNode.isValid <;> simp [hv, h]

theorem layoutProfile_empty_witness : layoutProfile invalidProfile 3 = [] :=
  layoutProfile_empty_on_invalid_or_no_samples invalidProfile 3 (Or.inl rfl)

/-- C7: when no item of the layout carries the active node key, dataRect
takes its warning fallback and returns the full-extent rectangle from
(0, 0) to (columnCount, 1). -/
theorem dataRect_no_match (layout : Layout) (key : ℤ)
    (h : ∀ col ∈ layout, ∀ it ∈ col, it.node_key ≠ key) :
    dataRect layout key = ⟨0, 0, (layout.length : ℚ), 1⟩ ∧
      dataRectWarns layout key = true := by
  have hf := findFrom_none key layout 0 h
  exact ⟨by simp [dataRect, hf], by simp [dataRectWarns, hf]⟩

theorem dataRect_no_match_witness :
    dataRect [[⟨1, false, 0, 1⟩]] 2 = ⟨0, 0, 1, 1⟩ ∧
      dataRectWarns [[⟨1, false, 0, 1⟩]] 2 = true := by
  have h := dataRect_no_match [[⟨1, false, 0, 1⟩]] 2 (by decide)
  simpa using h

/-- C8: for a data rectangle of non-zero width and height, the transform
built by getTransform maps each corner of the data rectangle exactly
onto the corresponding corner of the window rectangle. -/
theorem getTransform_maps_corners (w d : QRectF)
    (hw : d.width ≠ 0) (hh : d.height ≠ 0) :
    (getTransform w d).mapPt d.left d.top = (w.left, w.top) ∧
    (getTransform w d).mapPt d.right d.top = (w.right, w.top) ∧
    (getTransform w d).mapPt d.left d.bottom = (w.left, w.bottom) ∧
    (getTransform w d).mapPt d.right d.bottom = (w.right, w.bottom) := by
  simp only [QRectF.width, QRectF.height] at hw hh
  simp only [getTransform, QTransform.mapPt, QRectF.width, QRectF.height,
    Prod.mk.injEq]
  refine ⟨⟨?_, ?_⟩, ⟨?_, ?_⟩, ⟨?_, ?_⟩, ⟨?_, ?_⟩⟩ <;> (field_simp; try ring)

theorem getTransform_maps_corners_witness :
    (getTransform ⟨0, 0, 10, 5⟩ ⟨1, 2, 3, 4⟩).mapPt 1 2 = ((0 : ℚ), (0 : ℚ)) ∧
    (getTransform ⟨0, 0, 10, 5⟩ ⟨1, 2, 3, 4⟩).mapPt 3 2 = ((10 : ℚ), (0 : ℚ)) ∧
    (getTransform ⟨0, 0, 10, 5⟩ ⟨1, 2, 3, 4⟩).mapPt 1 4 = ((0 : ℚ), (5 : ℚ)) ∧
    (getTransform ⟨0, 0, 10, 5⟩ ⟨1, 2, 3, 4⟩).mapPt 3 4 = ((10 : ℚ), (5 : ℚ)) := by
  have h := getTransform_maps_corners ⟨0, 0, 10, 5⟩ ⟨1, 2, 3, 4⟩
    (by norm_num [QRectF.width]) (by norm_num [QRectF.height])
  simpa using h

/-- C5: when the first layout item carrying the active node key, in
column-major then row-major order, sits at column c with span from s
to e, dataRect returns the rectangle from (max 0 (c - 0.2),
max 0 (s - 0.05 (e - s))) to (columnCount, min 1 (e + 0.05 (e - s))). -/
theorem dataRect_first_match (layout : Layout) (key : ℤ) (c r : ℕ)
    (col : List LayoutItem) (item : LayoutItem)
    (hcol : layout.get? c = some col) (hitem : col.get? r = some item)
    (hkey : item.node_key = key)
    (hcols : ∀ j, j < c → ∀ colj, layout.get? j = some colj →
      ∀ it ∈ colj, it.node_key ≠ key)
    (hrows : ∀ j, j < r → ∀ itj, col.get? j = some itj → itj.node_key ≠ key) :
    dataRect layout key =
      ⟨max 0 ((c : ℚ) - 1/5),
       max (item.span_start - 1/20 * (item.span_end - item.span_start)) 0,
       (layout.length : ℚ),
       min (item.span_end + 1/20 * (item.span_end - item.span_start)) 1⟩ := by
  have hfind := findRow_first_match key col r item hitem hkey hrows
  have hff := findFrom_first key layout 0 c col item hcol hfind hcols
  rw [Nat.zero_add] at hff
  simp [dataRect, hff]

theorem dataRect_first_match_witness :
    dataRect [[⟨5, false, 0, 1⟩]] 5 = ⟨0, 0, 1, 1⟩ := by
  have h := dataRect_first_match [[⟨5, false, 0, 1⟩]] 5 0 0
    [⟨5, false, 0, 1⟩] ⟨5, false, 0, 1⟩ rfl rfl rfl
    (by intro j hj; exact absurd hj (Nat.not_lt_zero j))
    (by intro j hj; exact absurd hj (Nat.not_lt_zero j))
  rw [h]
  norm_num [QRectF.mk.injEq, max_def, min_def]

/-- C6 counterexample: on a layout whose matched item spans exactly 0 to
1, the rectangle returned by dataRect has vertical extent exactly 0 to
1, so it does not strictly contain the matched span. -/
theorem dataRect_strict_containment_cex :
    dataRect [[⟨7, false, 0, 1⟩]] 7 = ⟨0, 0, 1, 1⟩ ∧
    ¬((dataRect [[⟨7, false, 0, 1⟩]] 7).top < 0 ∧
      (1 : ℚ) < (dataRect [[⟨7, false, 0, 1⟩]] 7).bottom) := by
  have h : dataRect [[⟨7, false, 0, 1⟩]] 7 = ⟨0, 0, 1, 1⟩ := by
    norm_num [dataRect, findFrom, findRow, QRectF.mk.injEq, max_def, min_def]
  refine ⟨h, ?_⟩
  rw [h]
  norm_num

/-- C6 amended: whenever dataRect finds an item matching the active key
and that item's span lies within 0 to 1, the returned rectangle's
vertical extent contains the un-padded span (not necessarily
strictly: the padding is clamped at 0 and 1), and its left edge is
max 0 (col - 0.2). -/
theorem dataRect_contains_span (layout : Layout) (key : ℤ) (c : ℕ)
    (item : LayoutItem)
    (hfind : findFrom key layout 0 = some (c, item))
    (h0 : 0 ≤ item.span_start) (h1 : item.span_start ≤ item.span_end)
    (h2 : item.span_end ≤ 1) :
    (dataRect layout key).top ≤ item.span_start ∧
    item.span_end ≤ (dataRect layout key).bottom ∧
    (dataRect layout key).left = max 0 ((c : ℚ) - 1/5) := by
  have hd : dataRect layout key =
      ⟨max 0 ((c : ℚ) - 1/5),
       max (item.span_start - 1/20 * (item.span_end - item.span_start)) 0,
       (layout.length : ℚ),
       min (item.span_end + 1/20 * (item.span_end - item.span_start)) 1⟩ := by
    simp [dataRect, hfind]
  rw [hd]
  exact ⟨max_le (by linarith) h0, le_min (by linarith) h2, rfl⟩

theorem dataRect_contains_span_witness :
    (dataRect [[⟨7, false, 1/4, 1/2⟩]] 7).top ≤ (1/4 : ℚ) ∧
    (1/2 : ℚ) ≤ (dataRect [[⟨7, false, 1/4, 1/2⟩]] 7).bottom ∧
    (dataRect [[⟨7, false, 1/4, 1/2⟩]] 7).left = max 0 (((0 : ℕ) : ℚ) - 1/5) :=
  dataRect_contains_span [[⟨7, false, 1/4, 1/2⟩]] 7 0 ⟨7, false, 1/4, 1/2⟩
    rfl (by norm_num) (by norm_num) (by norm_num)

lemma sum_map_div (l : List ℚ) (s : ℚ) :
    (l.map (fun x => x / s)).sum = l.sum / s := by
  induction l with
  | nil => simp
  | cons x xs ih => simp [ih, add_div]

lemma chainFrom_append (c : ℚ) (xs ys : List LayoutItem) :
    chainFrom c (xs ++ ys) ↔ chainFrom c xs ∧ chainFrom (lastEnd c xs) ys := by
  induction xs generalizing c with
  | nil => simp [chainFrom, lastEnd]
  | cons it rest ih => simp [chainFrom, lastEnd, ih, and_assoc]

lemma lastEnd_eq_add_sum (c : ℚ) (l : List LayoutItem) (h : chainFrom c l) :
    lastEnd c l = c + (l.map itemLen).sum := by
  induction l generalizing c with
  | nil => simp [lastEnd]
  | cons it rest ih =>
    obtain ⟨h1, h2⟩ := h
    simp only [lastEnd, List.map_cons, List.sum_cons]
    rw [ih it.span_end h2]
    unfold itemLen
    rw [h1]
    ring

lemma le_lastEnd (c : ℚ) (l : List LayoutItem)
    (h : chainFrom c l) (hlen : ∀ it ∈ l, 0 ≤ itemLen it) :
    c ≤ lastEnd c l := by
  induction l generalizing c with
  | nil => simp [lastEnd]
  | cons it rest ih =>
    obtain ⟨h1, h2⟩ := h
    have h3 : 0 ≤ itemLen it := hlen it (List.mem_cons_self it rest)
    have h4 := ih it.span_end h2 (fun x hx => hlen x (List.mem_cons_of_mem _ hx))
    have h5 : c ≤ it.span_end := by
      rw [← h1]; unfold itemLen at h3; linarith
    simp only [lastEnd]
    exact le_trans h5 h4

lemma chain_mem_bounds (c : ℚ) (l : List LayoutItem)
    (h : chainFrom c l) (hlen : ∀ it ∈ l, 0 ≤ itemLen it) :
    ∀ it ∈ l, c ≤ it.span_start ∧ it.span_end ≤ lastEnd c l := by
  induction l generalizing c with
  | nil => intro it hit; simp at hit
  | cons hd rest ih =>
    obtain ⟨h1, h2⟩ := h
    intro it hit
    have hlen2 : ∀ x ∈ rest, 0 ≤ itemLen x :=
      fun x hx => hlen x (List.mem_cons_of_mem _ hx)
    have hhd : 0 ≤ itemLen hd := hlen hd (List.mem_cons_self hd rest)
    rcases List.mem_cons.mp hit with rfl | hmem
    · refine ⟨le_of_eq h1.symm, ?_⟩
      simp only [lastEnd]
      exact le_lastEnd it.span_end rest h2 hlen2
    · obtain ⟨ha, hb⟩ := ih hd.span_end h2 hlen2 it hmem
      refine ⟨?_, ?_⟩
      · have hce : c ≤ hd.span_end := by
          rw [← h1]; unfold itemLen at hhd; linarith
        exact le_trans hce ha
      · simpa [lastEnd] using hb

lemma expandChildren_cursor (p : Profile) (scale : ℚ) (keys : List ℤ) :
    ∀ c : ℚ, (expandChildren p scale c keys).cursor =
      c + (keys.map (fun k => nIncl p k / scale)).sum := by
  induction keys with
  | nil => intro c; simp [expandChildren]
  | cons k rest ih =>
    intro c
    simp only [expandChildren, List.map_cons, List.sum_cons]
    rw [ih]
    simp [nIncl]
    ring

lemma expandChildren_chain (p : Profile) (scale : ℚ) (keys : List ℤ) :
    ∀ c : ℚ, chainFrom c (expandChildren p scale c keys).items := by
  induction keys with
  | nil => intro c; simp [expandChildren, chainFrom]
  | cons k rest ih =>
    intro c
    simp only [expandChildren, chainFrom]
    exact ⟨by trivial, ih _⟩

lemma expandChildren_lastEnd (p : Profile) (scale : ℚ) (keys : List ℤ) :
    ∀ c : ℚ, lastEnd c (expandChildren p scale c keys).items =
      (expandChildren p scale c keys).cursor := by
  induction keys with
  | nil => intro c; simp [expandChildren, lastEnd]
  | cons k rest ih =>
    intro c
    simp only [expandChildren, lastEnd]
    exact ih _

lemma expandChildren_len (p : Profile) (scale : ℚ) (keys : List ℤ) :
    ∀ c : ℚ, ∀ it ∈ (expandChildren p scale c keys).items,
      itemLen it = itemWeight p scale it := by
  induction keys with
  | nil => intro c it hit; simp [expandChildren] at hit
  | cons k rest ih =>
    intro c it hit
    simp only [expandChildren] at hit
    rcases List.mem_cons.mp hit with rfl | hmem
    · simp [itemLen, itemWeight, nIncl]
    · exact ih _ it hmem

lemma expandChildren_sumw (p : Profile) (scale : ℚ) (keys : List ℤ) :
    ∀ c : ℚ, ((expandChildren p scale c keys).items.map (itemWeight p scale)).sum =
      (keys.map (fun k => nIncl p k / scale)).sum := by
  induction keys with
  | nil => intro c; simp [expandChildren]
  | cons k rest ih =>
    intro c
    simp only [expandChildren, List.map_cons, List.sum_cons]
    rw [ih]
    simp [itemWeight, nIncl]

lemma expandParent_cursor (p : Profile) (scale : ℚ) (parent : LayoutItem) (c : ℚ) :
    (expandParent p scale parent c).cursor = c + groupWeight p scale parent := by
  unfold expandParent groupWeight
  by_cases h : parent.exclusive = true
  · simp [h, nExcl]
  · simp only [h, if_false, Bool.false_eq_true]
    rw [expandChildren_cursor]
    simp [nExcl]
    ring

lemma expandParent_chain (p : Profile) (scale : ℚ) (parent : LayoutItem) (c : ℚ) :
    chainFrom c (expandParent p scale parent c).items := by
  unfold expandParent
  by_cases h : parent.exclusive = true
  · simp [h, chainFrom]
  · simp only [h, if_false, Bool.false_eq_true, chainFrom]
    exact ⟨by trivial, expandChildren_chain p scale _ _⟩

lemma expandParent_lastEnd (p : Profile) (scale : ℚ) (parent : LayoutItem) (c : ℚ) :
    lastEnd c (expandParent p scale parent c).items =
      (expandParent p scale parent c).cursor := by
  unfold expandParent
  by_cases h : parent.exclusive = true
  · simp [h, lastEnd]
  · simp only [h, if_false, Bool.false_eq_true, lastEnd]
    exact expandChildren_lastEnd p scale _ _

lemma expandParent_len (p : Profile) (scale : ℚ) (parent : LayoutItem) (c : ℚ) :
    ∀ it ∈ (expandParent p scale parent c).items,
      itemLen it = itemWeight p scale it := by
  unfold expandParent
  by_cases h : parent.exclusive = true
  · intro it hit
    simp only [h, if_true] at hit
    simp only [List.mem_singleton] at hit
    subst hit
    simp [itemLen, itemWeight, nExcl]
  · intro it hit
    simp only [h, if_false, Bool.false_eq_true] at hit
    rcases List.mem_cons.mp hit with rfl | hmem
    · simp [itemLen, itemWeight, nExcl]
    · exact expandChildren_len p scale _ _ it hmem

lemma expandParent_sumw (p : Profile) (scale : ℚ) (parent : LayoutItem) (c : ℚ) :
    ((expandParent p scale parent c).items.map (itemWeight p scale)).sum =
      groupWeight p scale parent := by
  unfold expandParent groupWeight
  by_cases h : parent.exclusive = true
  · simp [h, itemWeight, nExcl]
  · simp only [h, if_false, Bool.false_eq_true, List.map_cons, List.sum_cons]
    rw [expandChildren_sumw]
    simp [itemWeight, nExcl]

lemma lastEnd_append (c : ℚ) (xs ys : List LayoutItem) :
    lastEnd c (xs ++ ys) = lastEnd (lastEnd c xs) ys := by
  induction xs generalizing c with
  | nil => simp [lastEnd]
  | cons it rest ih =>
    simp only [List.cons_append, lastEnd]
    exact ih _

lemma buildColumn_cursor (p : Profile) (scale : ℚ) (parents : List LayoutItem) :
    ∀ c : ℚ, (buildColumn p scale parents c).cursor =
      c + (parents.map (groupWeight p scale)).sum := by
  induction parents with
  | nil => intro c; simp [buildColumn]
  | cons parent rest ih =>
    intro c
    simp only [buildColumn, List.map_cons, List.sum_cons]
    rw [ih, expandParent_cursor]
    ring

lemma buildColumn_lastEnd (p : Profile) (scale : ℚ) (parents : List LayoutItem) :
    ∀ c : ℚ, lastEnd c (buildColumn p scale parents c).items =
      (buildColumn p scale parents c).cursor := by
  induction parents with
  | nil => intro c; simp [buildColumn, lastEnd]
  | cons parent rest ih =>
    intro c
    simp only [buildColumn]
    rw [lastEnd_append, expandParent_lastEnd]
    exact ih _

lemma buildColumn_chain (p : Profile) (scale : ℚ) (parents : List LayoutItem) :
    ∀ c : ℚ, chainFrom c (buildColumn p scale parents c).items := by
  induction parents with
  | nil => intro c; simp [buildColumn, chainFrom]
  | cons parent rest ih =>
    intro c
    simp only [buildColumn]
    rw [chainFrom_append]
    refine ⟨expandParent_chain p scale parent c, ?_⟩
    rw [expandParent_lastEnd]
    exact ih _

lemma buildColumn_len (p : Profile) (scale : ℚ) (parents : List LayoutItem) :
    ∀ c : ℚ, ∀ it ∈ (buildColumn p scale parents c).items,
      itemLen it = itemWeight p scale it := by
  induction parents with
  | nil => intro c it hit; simp [buildColumn] at hit
  | cons parent rest ih =>
    intro c it hit
    simp only [buildColumn, List.mem_append] at hit
    rcases hit with hmem | hmem
    · exact expandParent_len p scale parent c it hmem
    · exact ih _ it hmem

lemma buildColumn_sumw (p : Profile) (scale : ℚ) (parents : List LayoutItem) :
    ∀ c : ℚ, ((buildColumn p scale parents c).items.map (itemWeight p scale)).sum =
      (parents.map (groupWeight p scale)).sum := by
  induction parents with
  | nil => intro c; simp [buildColumn]
  | cons parent rest ih =>
    intro c
    simp only [buildColumn, List.map_cons, List.sum_cons, List.map_append,
      List.sum_append]
    rw [ih, expandParent_sumw]

lemma itemWeight_nonneg (p : Profile) (scale : ℚ)
    (hnn : NonnegDurations p) (hscale : 0 < scale) (it : LayoutItem) :
    0 ≤ itemWeight p scale it := by
  unfold itemWeight
  by_cases h : it.exclusive = true
  · simp only [h, if_true]
    exact div_nonneg (hnn it.node_key).2 hscale.le
  · simp only [h, if_false, Bool.false_eq_true]
    exact div_nonneg (hnn it.node_key).1 hscale.le

lemma map_div_sum_eq (p : Profile) (scale : ℚ) (keys : List ℤ) :
    (keys.map (fun k => nIncl p k / scale)).sum = (keys.map (nIncl p)).sum / scale := by
  rw [← sum_map_div, List.map_map]
  rfl

lemma groupWeight_le_itemWeight (p : Profile) (scale : ℚ)
    (hcons : ConservLE p) (hscale : 0 < scale) (parent : LayoutItem) :
    groupWeight p scale parent ≤ itemWeight p scale parent := by
  unfold groupWeight itemWeight
  by_cases h : parent.exclusive = true
  · simp [h]
  · simp only [h, if_false, Bool.false_eq_true]
    rw [map_div_sum_eq, div_add_div_same]
    exact (div_le_div_iff_of_pos_right hscale).mpr (hcons parent.node_key)

lemma buildColumns_len (p : Profile) (scale : ℚ) :
    ∀ (fuel : ℕ) (parents : List LayoutItem),
      ∀ col ∈ buildColumns p scale parents fuel, ∀ it ∈ col,
        itemLen it = itemWeight p scale it := by
  intro fuel
  induction fuel with
  | zero => intro parents col hcol; simp [buildColumns] at hcol
  | succ fuel ih =>
    intro parents col hcol
    simp only [buildColumns] at hcol
    by_cases hkg : (buildColumn p scale parents 0).kg = true
    · rw [if_pos hkg] at hcol
      rcases List.mem_cons.mp hcol with rfl | hmem
      · exact buildColumn_len p scale parents 0
      · exact ih _ col hmem
    · rw [if_neg hkg] at hcol
      simp only [List.mem_singleton] at hcol
      subst hcol
      exact buildColumn_len p scale parents 0

lemma buildColumns_inv (p : Profile) (scale : ℚ)
    (hcons : ConservLE p) (hscale : 0 < scale) :
    ∀ (fuel : ℕ) (parents : List LayoutItem),
      (parents.map (itemWeight p scale)).sum ≤ 1 →
      ∀ col ∈ buildColumns p scale parents fuel,
        chainFrom 0 col ∧ (col.map (itemWeight p scale)).sum ≤ 1 := by
  intro fuel
  induction fuel with
  | zero => intro parents hb col hcol; simp [buildColumns] at hcol
  | succ fuel ih =>
    intro parents hb col hcol
    have hsum : ((buildColumn p scale parents 0).items.map (itemWeight p scale)).sum ≤ 1 := by
      rw [buildColumn_sumw]
      calc (parents.map (groupWeight p scale)).sum
          ≤ (parents.map (itemWeight p scale)).sum :=
            List.sum_le_sum (fun it _ => groupWeight_le_itemWeight p scale hcons hscale it)
        _ ≤ 1 := hb
    simp only [buildColumns] at hcol
    by_cases hkg : (buildColumn p scale parents 0).kg = true
    · rw [if_pos hkg] at hcol
      rcases List.mem_cons.mp hcol with rfl | hmem
      · exact ⟨buildColumn_chain p scale parents 0, hsum⟩
      · exact ih _ hsum col hmem
    · rw [if_neg hkg] at hcol
      simp only [List.mem_singleton] at hcol
      subst hcol
      exact ⟨buildColumn_chain p scale parents 0, hsum⟩

lemma layoutProfile_mem_cases (p : Profile) (fuel : ℕ) (col : List LayoutItem)
    (hcol : col ∈ layoutProfile p fuel) :
    col = [⟨p.rootKey, false, 0, 1⟩] ∨
      col ∈ buildColumns p (nIncl p p.rootKey) [⟨p.rootKey, false, 0, 1⟩] fuel := by
  unfold layoutProfile at hcol
  by_cases hv : p.rootNode.isValid = true
  case neg => simp [hv] at hcol
  case pos =>
    by_cases hd : p.rootNode.data.isEmpty = true
    · simp [hv, hd] at hcol
    · by_cases hc : p.rootNode.hasChildren = true
      · simp only [hv, hd, hc, Bool.not_true, Bool.false_eq_true, if_false,
          if_true, List.mem_cons] at hcol
        exact hcol
      · simp only [hv, hd, hc, Bool.not_true, Bool.false_eq_true, if_false,
          if_true, List.mem_singleton] at hcol
        exact Or.inl hcol

lemma rootItem_weight (p : Profile) (hscale : nIncl p p.rootKey ≠ 0) :
    itemWeight p (nIncl p p.rootKey) ⟨p.rootKey, false, 0, 1⟩ = 1 := by
  simp [itemWeight, div_self hscale]

lemma layout_len_eq_weight (p : Profile) (fuel : ℕ)
    (hscale : nIncl p p.rootKey ≠ 0) :
    ∀ col ∈ layoutProfile p fuel, ∀ it ∈ col,
      itemLen it = itemWeight p (nIncl p p.rootKey) it := by
  intro col hcol
  rcases layoutProfile_mem_cases p fuel col hcol with rfl | hmem
  · intro it hit
    simp only [List.mem_singleton] at hit
    subst hit
    rw [rootItem_weight p hscale]
    simp [itemLen]
  · exact buildColumns_len p _ fuel _ col hmem

lemma layout_inv (p : Profile) (fuel : ℕ)
    (hcons : ConservLE p)
    (hscale : 0 < nIncl p p.rootKey) :
    ∀ col ∈ layoutProfile p fuel,
      chainFrom 0 col ∧ (col.map (itemWeight p (nIncl p p.rootKey))).sum ≤ 1 := by
  intro col hcol
  have hroot : (([⟨p.rootKey, false, 0, 1⟩] : List LayoutItem).map
      (itemWeight p (nIncl p p.rootKey))).sum = 1 := by
    simp [rootItem_weight p hscale.ne']
  rcases layoutProfile_mem_cases p fuel col hcol with rfl | hmem
  · exact ⟨by simp [chainFrom], le_of_eq hroot⟩
  · exact buildColumns_inv p _ hcons hscale fuel _ (le_of_eq hroot) col hmem

/-- C3 counterexample: a profile whose root is valid with one sample but
whose exclusive duration (200 ns) exceeds its inclusive duration
(100 ns) is accepted by layoutProfile, yet produces an item whose
span_end is 2, beyond 1 by far more than the 1e-9 tolerance. -/
theorem layoutProfile_span_bound_cex :
    cex3Profile.rootNode.isValid = true ∧ cex3Profile.rootNode.data ≠ [] ∧
    ∃ col ∈ layoutProfile cex3Profile 1, ∃ it ∈ col,
      1 + 1/1000000000 < it.span_end := by
  have hL : layoutProfile cex3Profile 1 =
      [[⟨1, false, 0, 1⟩], [⟨1, true, 0, 2⟩, ⟨3, false, 2, 2⟩]] := by
    simp [layoutProfile, buildColumns, buildColumn, expandParent, expandChildren,
      cex3Profile, blankNode, Profile.rootNode, Profile.node,
      ProfileNode.isValid, ProfileNode.hasChildren, ProfileNode.lastSample]
    norm_num
  refine ⟨rfl, by simp [cex3Profile, Profile.rootNode], ?_⟩
  rw [hL]
  exact ⟨[⟨1, true, 0, 2⟩, ⟨3, false, 2, 2⟩], by simp,
    ⟨1, true, 0, 2⟩, by simp, by norm_num⟩

/-- C3 amended: for a profile accepted by layoutProfile whose durations
are non-negative, whose root has positive latest inclusive duration,
and in which every node's exclusive duration plus its children's
inclusive durations stays within its own inclusive duration, every
item of every column satisfies 0 ≤ span_start ≤ span_end ≤ 1. -/
theorem layoutProfile_spans_normalized (p : Profile) (fuel : ℕ)
    (hnn : NonnegDurations p) (hcons : ConservLE p)
    (hscale : 0 < nIncl p p.rootKey) :
    ∀ col ∈ layoutProfile p fuel, ∀ it ∈ col,
      0 ≤ it.span_start ∧ it.span_start ≤ it.span_end ∧ it.span_end ≤ 1 := by
  intro col hcol it hit
  obtain ⟨hchain, hsumw⟩ := layout_inv p fuel hcons hscale col hcol
  have hlen : ∀ x ∈ col, itemLen x = itemWeight p (nIncl p p.rootKey) x :=
    layout_len_eq_weight p fuel hscale.ne' col hcol
  have hnonneg : ∀ x ∈ col, 0 ≤ itemLen x := fun x hx => by
    rw [hlen x hx]; exact itemWeight_nonneg p _ hnn hscale x
  obtain ⟨hstart, hend⟩ := chain_mem_bounds 0 col hchain hnonneg it hit
  have hlast : lastEnd 0 col = (col.map itemLen).sum := by
    rw [lastEnd_eq_add_sum 0 col hchain]; ring
  have hsum_eq : (col.map itemLen).sum =
      (col.map (itemWeight p (nIncl p p.rootKey))).sum := by
    congr 1
    exact List.map_congr_left hlen
  have hit_nonneg := hnonneg it hit
  unfold itemLen at hit_nonneg
  refine ⟨hstart, by linarith, ?_⟩
  calc it.span_end ≤ lastEnd 0 col := hend
    _ = (col.map itemLen).sum := hlast
    _ = (col.map (itemWeight p (nIncl p p.rootKey))).sum := hsum_eq
    _ ≤ 1 := hsumw

lemma exampleProfile_layout :
    layoutProfile exampleProfile 1 =
      [[⟨1, false, 0, 1⟩], [⟨1, true, 0, 1/5⟩, ⟨2, false, 1/5, 1⟩]] := by
  simp [layoutProfile, buildColumns, buildColumn, expandParent, expandChildren,
    exampleProfile, rootNodeEx, childNodeEx, blankNode, Profile.rootNode, Profile.node,
    ProfileNode.isValid, ProfileNode.hasChildren, ProfileNode.lastSample]
  norm_num

lemma exampleProfile_nonneg : NonnegDurations exampleProfile := by
  intro k
  simp only [nIncl, nExcl, Profile.node, exampleProfile]
  by_cases h1 : k = 1
  · norm_num [h1, rootNodeEx, ProfileNode.lastSample]
  · by_cases h2 : k = 2
    · norm_num [h1, h2, childNodeEx, ProfileNode.lastSample]
    · norm_num [h1, h2, blankNode, ProfileNode.lastSample]

lemma exampleProfile_consEq : ConservEQ exampleProfile := by
  intro k
  by_cases h1 : k = 1
  · norm_num [h1, nIncl, nExcl, Profile.node, exampleProfile, rootNodeEx,
      childNodeEx, ProfileNode.lastSample]
  · by_cases h2 : k = 2
    · norm_num [h1, h2, nIncl, nExcl, Profile.node, exampleProfile,
        childNodeEx, ProfileNode.lastSample]
    · norm_num [h1, h2, nIncl, nExcl, Profile.node, exampleProfile,
        blankNode, ProfileNode.lastSample]

lemma exampleProfile_consLe : ConservLE exampleProfile :=
  fun k => le_of_eq (exampleProfile_consEq k)

lemma exampleProfile_scale_pos : 0 < nIncl exampleProfile exampleProfile.rootKey := by
  norm_num [nIncl, Profile.node, exampleProfile, rootNodeEx, ProfileNode.lastSample]

theorem layoutProfile_spans_normalized_witness :
    0 ≤ (⟨2, false, 1/5, 1⟩ : LayoutItem).span_start ∧
    (⟨2, false, 1/5, 1⟩ : LayoutItem).span_start ≤
      (⟨2, false, 1/5, 1⟩ : LayoutItem).span_end ∧
    (⟨2, false, 1/5, 1⟩ : LayoutItem).span_end ≤ 1 := by
  apply layoutProfile_spans_normalized exampleProfile 1 exampleProfile_nonneg
    exampleProfile_consLe exampleProfile_scale_pos
    [⟨1, true, 0, 1/5⟩, ⟨2, false, 1/5, 1⟩] ?_ ⟨2, false, 1/5, 1⟩ ?_
  · rw [exampleProfile_layout]
    simp
  · simp

lemma groupWeight_eq_itemWeight (p : Profile) (scale : ℚ)
    (hcons : ConservEQ p) (parent : LayoutItem) (h : parent.exclusive = false) :
    groupWeight p scale parent = itemWeight p scale parent := by
  unfold groupWeight itemWeight
  simp only [h, if_false, Bool.false_eq_true]
  rw [map_div_sum_eq, div_add_div_same, hcons parent.node_key]

lemma buildColumn_append (p : Profile) (scale : ℚ) (xs : List LayoutItem) :
    ∀ (ys : List LayoutItem) (c : ℚ),
      (buildColumn p scale (xs ++ ys) c).items =
        (buildColumn p scale xs c).items ++
          (buildColumn p scale ys (buildColumn p scale xs c).cursor).items := by
  induction xs with
  | nil => intro ys c; simp [buildColumn]
  | cons x rest ih =>
    intro ys c
    simp only [List.cons_append, buildColumn, List.append_eq]
    rw [ih, List.append_assoc]

lemma cols_adjacent (p : Profile) (scale : ℚ) :
    ∀ (fuel : ℕ) (parents : List LayoutItem) (i : ℕ) (cA cB : List LayoutItem),
      (parents :: buildColumns p scale parents fuel).get? i = some cA →
      (parents :: buildColumns p scale parents fuel).get? (i + 1) = some cB →
      cB = (buildColumn p scale cA 0).items := by
  intro fuel
  induction fuel with
  | zero =>
    intro parents i cA cB hA hB
    simp only [buildColumns] at hB
    rcases i with _ | j
    · simp at hB
    · simp only [List.get?_cons_succ] at hB
      simp at hB
  | succ fuel ih =>
    intro parents i cA cB hA hB
    simp only [buildColumns] at hA hB
    by_cases hkg : (buildColumn p scale parents 0).kg = true
    · rw [if_pos hkg] at hA hB
      rcases i with _ | j
      · simp only [List.get?_cons_zero, Option.some.injEq] at hA
        simp only [List.get?_cons_succ, List.get?_cons_zero, Option.some.injEq] at hB
        subst hA
        exact hB.symm
      · simp only [List.get?_cons_succ] at hA hB
        exact ih (buildColumn p scale parents 0).items j cA cB hA hB
    · rw [if_neg hkg] at hA hB
      rcases i with _ | j
      · simp only [List.get?_cons_zero, Option.some.injEq] at hA
        simp only [List.get?_cons_succ, List.get?_cons_zero, Option.some.injEq] at hB
        subst hA
        exact hB.symm
      · simp only [List.get?_cons_succ] at hA hB
        rcases j with _ | j2
        · simp at hB
        · simp at hA

lemma layoutProfile_adjacent (p : Profile) (fuel : ℕ)
    (i : ℕ) (cA cB : List LayoutItem)
    (hA : (layoutProfile p fuel).get? i = some cA)
    (hB : (layoutProfile p fuel).get? (i + 1) = some cB) :
    cB = (buildColumn p (nIncl p p.rootKey) cA 0).items := by
  unfold layoutProfile at hA hB
  by_cases hv : p.rootNode.isValid = true
  case neg => simp [hv] at hA
  case pos =>
    by_cases hd : p.rootNode.data.isEmpty = true
    · simp [hv, hd] at hA
    · by_cases hc : p.rootNode.hasChildren = true
      · simp only [hv, hd, hc, Bool.not_true, Bool.false_eq_true, if_false,
          if_true] at hA hB
        exact cols_adjacent p _ fuel [⟨p.rootKey, false, 0, 1⟩] i cA cB hA hB
      · simp only [hv, hd, hc, Bool.not_true, Bool.false_eq_true, if_false,
          if_true] at hA hB
        rcases i with _ | j
        · simp at hB
        · simp at hA

/-- C4 counterexample: for the profile with root inclusive 100 ns,
exclusive 50 ns and a single child of inclusive 80 ns, the column
generated from the root item has total span length 1.3, overshooting
the root's own span length 1 by far more than the tolerance. -/
theorem layoutProfile_conservation_cex :
    (layoutProfile cex4Profile 1).get? 0 = some [⟨1, false, 0, 1⟩] ∧
    (layoutProfile cex4Profile 1).get? 1 =
      some [⟨1, true, 0, 1/2⟩, ⟨2, false, 1/2, 13/10⟩] ∧
    1/1000000000 <
      (([⟨1, true, 0, 1/2⟩, ⟨2, false, 1/2, 13/10⟩] : List LayoutItem).map
        itemLen).sum - itemLen ⟨1, false, 0, 1⟩ := by
  have hL : layoutProfile cex4Profile 1 =
      [[⟨1, false, 0, 1⟩], [⟨1, true, 0, 1/2⟩, ⟨2, false, 1/2, 13/10⟩]] := by
    simp [layoutProfile, buildColumns, buildColumn, expandParent, expandChildren,
      cex4Profile, blankNode, Profile.rootNode, Profile.node,
      ProfileNode.isValid, ProfileNode.hasChildren, ProfileNode.lastSample]
    norm_num
  rw [hL]
  refine ⟨rfl, rfl, ?_⟩
  norm_num [itemLen]

/-- C4 amended: under exact duration conservation (each node's exclusive
duration plus its children's inclusive durations equals its inclusive
duration) and a non-zero root scale, for any two adjacent columns of a
built layout and any non-exclusive parent item P of the earlier
column, the next column decomposes around the items generated from P,
those items form a contiguous chain starting at the cursor reached
after the earlier parents, and the sum of their span lengths equals
P's own span length exactly. -/
theorem layoutProfile_parent_group_conservation (p : Profile) (fuel : ℕ)
    (hcons : ConservEQ p) (hscale : nIncl p p.rootKey ≠ 0)
    (i : ℕ) (parents children : List LayoutItem)
    (hA : (layoutProfile p fuel).get? i = some parents)
    (hB : (layoutProfile p fuel).get? (i + 1) = some children)
    (pre suf : List LayoutItem) (P : LayoutItem)
    (hsplit : parents = pre ++ P :: suf) (hP : P.exclusive = false) :
    children =
      (buildColumn p (nIncl p p.rootKey) pre 0).items ++
        ((expandParent p (nIncl p p.rootKey) P
            (buildColumn p (nIncl p p.rootKey) pre 0).cursor).items ++
          (buildColumn p (nIncl p p.rootKey) suf
            (expandParent p (nIncl p p.rootKey) P
              (buildColumn p (nIncl p p.rootKey) pre 0).cursor).cursor).items) ∧
    chainFrom (buildColumn p (nIncl p p.rootKey) pre 0).cursor
      (expandParent p (nIncl p p.rootKey) P
        (buildColumn p (nIncl p p.rootKey) pre 0).cursor).items ∧
    ((expandParent p (nIncl p p.rootKey) P
        (buildColumn p (nIncl p p.rootKey) pre 0).cursor).items.map itemLen).sum
      = itemLen P := by
  have hadj := layoutProfile_adjacent p fuel i parents children hA hB
  refine ⟨?_, expandParent_chain p _ P _, ?_⟩
  · rw [hadj, hsplit, buildColumn_append]
    simp only [buildColumn]
  · have hgrp := expandParent_len p (nIncl p p.rootKey) P
      (buildColumn p (nIncl p p.rootKey) pre 0).cursor
    have hmap : ((expandParent p (nIncl p p.rootKey) P
        (buildColumn p (nIncl p p.rootKey) pre 0).cursor).items.map itemLen).sum =
        ((expandParent p (nIncl p p.rootKey) P
          (buildColumn p (nIncl p p.rootKey) pre 0).cursor).items.map
            (itemWeight p (nIncl p p.rootKey))).sum := by
      congr 1
      exact List.map_congr_left hgrp
    rw [hmap, expandParent_sumw, groupWeight_eq_itemWeight p _ hcons P hP]
    have hPmem : P ∈ parents := by
      rw [hsplit]
      exact List.mem_append.mpr (Or.inr (List.mem_cons_self P suf))
    have hpar : parents ∈ layoutProfile p fuel := List.get?_mem hA
    exact (layout_len_eq_weight p fuel hscale parents hpar P hPmem).symm

theorem layoutProfile_parent_group_conservation_witness :
    ([⟨1, true, 0, 1/5⟩, ⟨2, false, 1/5, 1⟩] : List LayoutItem) =
      (buildColumn exampleProfile (nIncl exampleProfile exampleProfile.rootKey)
          [] 0).items ++
        ((expandParent exampleProfile (nIncl exampleProfile exampleProfile.rootKey)
            ⟨1, false, 0, 1⟩
            (buildColumn exampleProfile (nIncl exampleProfile exampleProfile.rootKey)
              [] 0).cursor).items ++
          (buildColumn exampleProfile (nIncl exampleProfile exampleProfile.rootKey) []
            (expandParent exampleProfile (nIncl exampleProfile exampleProfile.rootKey)
              ⟨1, false, 0, 1⟩
              (buildColumn exampleProfile (nIncl exampleProfile exampleProfile.rootKey)
                [] 0).cursor).cursor).items) ∧
    chainFrom
      (buildColumn exampleProfile (nIncl exampleProfile exampleProfile.rootKey)
        [] 0).cursor
      (expandParent exampleProfile (nIncl exampleProfile exampleProfile.rootKey)
        ⟨1, false, 0, 1⟩
        (buildColumn exampleProfile (nIncl exampleProfile exampleProfile.rootKey)
          [] 0).cursor).items ∧
    ((expandParent exampleProfile (nIncl exampleProfile exampleProfile.rootKey)
        ⟨1, false, 0, 1⟩
        (buildColumn exampleProfile (nIncl exampleProfile exampleProfile.rootKey)
          [] 0).cursor).items.map itemLen).sum = itemLen ⟨1, false, 0, 1⟩ :=
  layoutProfile_parent_group_conservation exampleProfile 1 exampleProfile_consEq
    (ne_of_gt exampleProfile_scale_pos) 0 [⟨1, false, 0, 1⟩]
    [⟨1, true, 0, 1/5⟩, ⟨2, false, 1/5, 1⟩]
    (by rw [exampleProfile_layout]; rfl) (by rw [exampleProfile_layout]; rfl) [] []
    ⟨1, false, 0, 1⟩ rfl rfl

/-- C9 counterexample: with a transition halfway through (progress 1/2,
start all-zero, end all-eight), the animator's current interpolated
rectangle is all-four, yet a re-entrant setActiveNode seeds the new
start from the previous end value (all-eight), not from the current
interpolated rectangle. -/
theorem setActiveNode_restart_cex :
    (⟨⟨0, 0, 0, 0⟩, ⟨8, 8, 8, 8⟩, 1/2, AnimState.Animating, 500⟩ :
        VariantAnimation).state = AnimState.Animating ∧
    (setActiveNode exampleDb 1
        ⟨some (0, 1), [],
          ⟨⟨0, 0, 0, 0⟩, ⟨8, 8, 8, 8⟩, 1/2, AnimState.Animating, 500⟩⟩
        0 2).anim.startValue ≠
      VariantAnimation.currentValue
        ⟨⟨0, 0, 0, 0⟩, ⟨8, 8, 8, 8⟩, 1/2, AnimState.Animating, 500⟩ := by
  refine ⟨rfl, ?_⟩
  have h1 : (setActiveNode exampleDb 1
      ⟨some (0, 1), [],
        ⟨⟨0, 0, 0, 0⟩, ⟨8, 8, 8, 8⟩, 1/2, AnimState.Animating, 500⟩⟩
      0 2).anim.startValue = ⟨8, 8, 8, 8⟩ := by
    simp [setActiveNode]
  have h2 : VariantAnimation.currentValue
      ⟨⟨0, 0, 0, 0⟩, ⟨8, 8, 8, 8⟩, 1/2, AnimState.Animating, 500⟩ =
      ⟨4, 4, 4, 4⟩ := by
    norm_num [VariantAnimation.currentValue, lerpRect, lerpQ, easeInOutCubic,
      QRectF.mk.injEq]
  rw [h1, h2]
  intro hcontra
  have h3 := congrArg QRectF.left hcontra
  norm_num at h3

/-- C9 amended: a setActiveNode call with a new valid key while a
previous transition is in progress starts the new 500 ms transition
from the previous transition's end rectangle (not from the current
interpolated rectangle), sets its end to the newly computed target
rectangle, and restarts the animator (progress 0, Animating), which
implicitly cancels the previous transition. -/
theorem setActiveNode_restart_from_prev_end (db : ProfileDatabase) (fuel : ℕ)
    (s : WidgetState) (pk nk : ℤ)
    (hanim : s.anim.state = AnimState.Animating)
    (hvalid : s.active_key.isSome = true)
    (hneq : s.active_key ≠ some (pk, nk)) :
    (setActiveNode db fuel s pk nk).anim.startValue = s.anim.endValue ∧
    (setActiveNode db fuel s pk nk).anim.endValue =
      dataRect (layoutProfile (db.profile pk) fuel) nk ∧
    (setActiveNode db fuel s pk nk).anim.state = AnimState.Animating ∧
    (setActiveNode db fuel s pk nk).anim.progress = 0 ∧
    (setActiveNode db fuel s pk nk).anim.duration = 500 := by
  have _hstate := hanim
  simp [setActiveNode, hneq, hvalid]

theorem setActiveNode_restart_from_prev_end_witness :
    (setActiveNode exampleDb 1
        ⟨some (0, 1), [],
          ⟨⟨0, 0, 0, 0⟩, ⟨8, 8, 8, 8⟩, 1/2, AnimState.Animating, 500⟩⟩
        0 2).anim.startValue =
      (⟨some (0, 1), [],
          ⟨⟨0, 0, 0, 0⟩, ⟨8, 8, 8, 8⟩, 1/2, AnimState.Animating, 500⟩⟩ :
        WidgetState).anim.endValue ∧
    (setActiveNode exampleDb 1
        ⟨some (0, 1), [],
          ⟨⟨0, 0, 0, 0⟩, ⟨8, 8, 8, 8⟩, 1/2, AnimState.Animating, 500⟩⟩
        0 2).anim.endValue =
      dataRect (layoutProfile (exampleDb.profile 0) 1) 2 ∧
    (setActiveNode exampleDb 1
        ⟨some (0, 1), [],
          ⟨⟨0, 0, 0, 0⟩, ⟨8, 8, 8, 8⟩, 1/2, AnimState.Animating, 500⟩⟩
        0 2).anim.state = AnimState.Animating ∧
    (setActiveNode exampleDb 1
        ⟨some (0, 1), [],
          ⟨⟨0, 0, 0, 0⟩, ⟨8, 8, 8, 8⟩, 1/2, AnimState.Animating, 500⟩⟩
        0 2).anim.progress = 0 ∧
    (setActiveNode exampleDb 1
        ⟨some (0, 1), [],
          ⟨⟨0, 0, 0, 0⟩, ⟨8, 8, 8, 8⟩, 1/2, AnimState.Animating, 500⟩⟩
        0 2).anim.duration = 500 :=
  setActiveNode_restart_from_prev_end exampleDb 1
    ⟨some (0, 1), [],
      ⟨⟨0, 0, 0, 0⟩, ⟨8, 8, 8, 8⟩, 1/2, AnimState.Animating, 500⟩⟩
    0 2 rfl rfl (by simp)

/-- C10 counterexample: when no active key is set, a data-added
notification leaves the widget state entirely unchanged even though
the database's profile would produce a non-empty layout, so the
handler does not rebuild the layout on every notification. -/
theorem updateData_requires_active_cex :
    handleSignal DbSignal.dataAdded exampleDb 1
        ⟨none, [], ⟨⟨0, 0, 0, 0⟩, ⟨0, 0, 0, 0⟩, 0, AnimState.Idle, 0⟩⟩ =
      ⟨none, [], ⟨⟨0, 0, 0, 0⟩, ⟨0, 0, 0, 0⟩, 0, AnimState.Idle, 0⟩⟩ ∧
    layoutProfile (exampleDb.profile 0) 1 ≠ [] := by
  refine ⟨rfl, ?_⟩
  show layoutProfile exampleProfile 1 ≠ []
  rw [exampleProfile_layout]
  simp

/-- C10 amended: when a valid active key is set, every database change
notification rebuilds the current layout from the active profile,
refreshes the animation target rectangle (leaving the start value
untouched), keeps the active key, and all three notification kinds
run the same updateData slot. -/
theorem updateData_rebuilds_layout (sig : DbSignal) (db : ProfileDatabase)
    (fuel : ℕ) (s : WidgetState) (pk nk : ℤ)
    (h : s.active_key = some (pk, nk)) :
    (handleSignal sig db fuel s).current_layout =
      layoutProfile (db.profile pk) fuel ∧
    (handleSignal sig db fuel s).anim.endValue =
      dataRect (layoutProfile (db.profile pk) fuel) nk ∧
    (handleSignal sig db fuel s).anim.startValue = s.anim.startValue ∧
    (handleSignal sig db fuel s).active_key = s.active_key ∧
    handleSignal sig db fuel s = updateData db fuel s := by
  simp [handleSignal, updateData, h]

theorem updateData_rebuilds_layout_witness :
    (handleSignal DbSignal.nodesAdded exampleDb 1
        ⟨some (0, 2), [], ⟨⟨0, 0, 0, 0⟩, ⟨0, 0, 0, 0⟩, 0, AnimState.Idle, 0⟩⟩
      ).current_layout = layoutProfile (exampleDb.profile 0) 1 ∧
    (handleSignal DbSignal.nodesAdded exampleDb 1
        ⟨some (0, 2), [], ⟨⟨0, 0, 0, 0⟩, ⟨0, 0, 0, 0⟩, 0, AnimState.Idle, 0⟩⟩
      ).anim.endValue = dataRect (layoutProfile (exampleDb.profile 0) 1) 2 ∧
    (handleSignal DbSignal.nodesAdded exampleDb 1
        ⟨some (0, 2), [], ⟨⟨0, 0, 0, 0⟩, ⟨0, 0, 0, 0⟩, 0, AnimState.Idle, 0⟩⟩
      ).anim.startValue =
      (⟨some (0, 2), [], ⟨⟨0, 0, 0, 0⟩, ⟨0, 0, 0, 0⟩, 0, AnimState.Idle, 0⟩⟩ :
        WidgetState).anim.startValue ∧
    (handleSignal DbSignal.nodesAdded exampleDb 1
        ⟨some (0, 2), [], ⟨⟨0, 0, 0, 0⟩, ⟨0, 0, 0, 0⟩, 0, AnimState.Idle, 0⟩⟩
      ).active_key =
      (⟨some (0, 2), [], ⟨⟨0, 0, 0, 0⟩, ⟨0, 0, 0, 0⟩, 0, AnimState.Idle, 0⟩⟩ :
        WidgetState).active_key ∧
    handleSignal DbSignal.nodesAdded exampleDb 1
        ⟨some (0, 2), [], ⟨⟨0, 0, 0, 0⟩, ⟨0, 0, 0, 0⟩, 0, AnimState.Idle, 0⟩⟩ =
      updateData exampleDb 1
        ⟨some (0, 2), [], ⟨⟨0, 0, 0, 0⟩, ⟨0, 0, 0, 0⟩, 0, AnimState.Idle, 0⟩⟩ :=
  updateData_rebuilds_layout DbSignal.nodesAdded exampleDb 1
    ⟨some (0, 2), [], ⟨⟨0, 0, 0, 0⟩, ⟨0, 0, 0, 0⟩, 0, AnimState.Idle, 0⟩⟩
    0 2 rfl

theorem layoutProfile_two_level_scenario_witness :
    layoutProfile exampleProfile 2 =
      [[⟨1, false, 0, 1⟩], [⟨1, true, 0, 1/5⟩, ⟨2, false, 1/5, 1⟩]] :=
  layoutProfile_two_level_scenario 1
